import Mathlib

/-!
Verification of the configuration-resolution core and routing-header codec
of the Portkey CLI (a setup assistant that routes a coding-agent CLI
through a gateway).

The development shallowly embeds the relevant JavaScript functions over
`List Char` / `String`:

* the routing-header codec: the header-building expressions of
  `doSetup` (src/commands/claude-code/setup.js) and the header-parsing
  block of `readExistingConfig` (utils.js);
* the per-variable layer resolution of `doDiscover` (discover.js);
* `jsonRead`, `settingsSetEnv`, `findProjectRoot` and `writeShellRc`
  (utils.js).

JavaScript strings are modelled as `List Char` (wrapped in `String` at the
interfaces); regular-expression operations of the source are modelled by
explicit leftmost-match scanners.  JSON documents are modelled as pure data
trees (prototype-inherited properties of JavaScript values are outside the
model).
-/

set_option maxRecDepth 20000

/-! ### Basic string scanning utilities (models of JS string operations) -/

/-- Model of the character class `\s` of JavaScript regular expressions
(ECMAScript WhiteSpace and LineTerminator code points). -/
def jsSpace (ch : Char) : Bool :=
  let n := ch.toNat
  (9 ≤ n && n ≤ 13) || n == 32 || n == 160 || n == 5760 ||
    (8192 ≤ n && n ≤ 8202) || n == 8232 || n == 8233 || n == 8239 ||
    n == 8287 || n == 12288 || n == 65279

/-- `startsWithL pat l` is true when `pat` is a prefix of `l`
(model of anchoring a literal at one scan position). -/
def startsWithL : List Char → List Char → Bool
  | [], _ => true
  | _ :: _, [] => false
  | a :: as, b :: bs => a == b && startsWithL as bs

/-- `containsSub pat l` is true when `pat` occurs as a contiguous substring
of `l` (model of `String.prototype.includes`). -/
def containsSub (pat : List Char) : List Char → Bool
  | [] => startsWithL pat []
  | l@(_ :: t) => startsWithL pat l || containsSub pat t

/-- At one scan position, try to match `tok` immediately followed by a
non-empty run of non-whitespace characters, returning the run
(the capture group of `/tok(\S+)/` anchored at this position). -/
def tokenValueAt (tok l : List Char) : Option (List Char) :=
  if startsWithL tok l then
    match l.drop tok.length with
    | [] => none
    | ch :: rest =>
      if jsSpace ch then none
      else some (ch :: rest.takeWhile (fun d => !jsSpace d))
  else none

/-- Leftmost match of `/tok(\S+)/`: scan positions left to right, at each
position require `tok` followed by at least one non-whitespace character,
and capture the maximal non-whitespace run
(model of `headers.match(/tok(\S+)/)?.[1]`). -/
def matchTokenL (tok : List Char) : List Char → Option (List Char)
  | [] => none
  | l@(_ :: t) =>
    match tokenValueAt tok l with
    | some v => some v
    | none => matchTokenL tok t

/-- Strip every leading `'@'` (model of `slug.replace(/^@+/, "")`). -/
def stripAts (l : List Char) : List Char :=
  l.dropWhile (fun c => c == '@')

/-! ### Routing-codec constants -/

def provTok : List Char :=
  ['x', '-', 'p', 'o', 'r', 't', 'k', 'e', 'y', '-',
   'p', 'r', 'o', 'v', 'i', 'd', 'e', 'r', ':']

def cfgTok : List Char :=
  ['x', '-', 'p', 'o', 'r', 't', 'k', 'e', 'y', '-',
   'c', 'o', 'n', 'f', 'i', 'g', ':']

def apiKeyTok : List Char :=
  ['x', '-', 'p', 'o', 'r', 't', 'k', 'e', 'y', '-',
   'a', 'p', 'i', '-', 'k', 'e', 'y', ':']

def pcPre : List Char := ['p', 'c', '-']

/-! ### Routing-codec decode (from `readExistingConfig`, utils.js) -/

/-- The structured routing intent recovered from a header line, as
classified by the header-parsing block of `readExistingConfig`
(`mode`/`provider`/`configId`; `unknown` models `mode = ""`). -/
inductive SourceIntent where
  | unknown
  | provider (slug : String)
  | config (id : String)
  | oauth
  deriving DecidableEq

/-- Decode of a routing header line, embedding the header-parsing block of
`readExistingConfig` (utils.js lines 361-376): a `x-portkey-provider:`
token wins and its value loses all leading `'@'`; otherwise a
`x-portkey-config:` token is classified as `config` when its value starts
with `pc-` or is shorter than 30 characters, else `oauth`; with neither
token the mode stays empty. -/
def decodeRoutingL (h : List Char) : SourceIntent :=
  if containsSub provTok h then
    .provider ⟨stripAts ((matchTokenL provTok h).getD [])⟩
  else if containsSub cfgTok h then
    let v := (matchTokenL cfgTok h).getD []
    if startsWithL pcPre v || v.length < 30 then .config ⟨v⟩ else .oauth
  else .unknown

/-- String-level decode of a routing header line. -/
def decodeRoutingHeader (h : String) : SourceIntent :=
  decodeRoutingL h.data

/-! ### Routing-codec encode (from `doSetup`, setup.js) -/

/-- Provider-mode header (setup.js lines 237-238):
`normalizeProvider(slug).slice(1)` strips all leading `'@'`, and the
header is `x-portkey-provider:@<stripped>`. -/
def encodeProviderHeader (slug : String) : String :=
  ⟨provTok ++ '@' :: stripAts slug.data⟩

/-- Config-mode header (setup.js line 303): `x-portkey-config:<id>`
verbatim. -/
def encodeConfigHeader (id : String) : String :=
  ⟨cfgTok ++ id.data⟩

/-! ### Configuration layers and per-variable resolution (from `doDiscover`, discover.js) -/

/-- The five configuration layers. -/
inductive CLayer where
  | shellEnv
  | enterprise
  | projectLocal
  | projectShared
  | globalCfg
  deriving DecidableEq

/-- The four file-backed layers, in the scan order of discover.js
(`LAYERS = ["enterprise", "global", "project-shared", "project-local"]`). -/
def fileLayers : List CLayer :=
  [.enterprise, .globalCfg, .projectShared, .projectLocal]

/-- The fixed precedence order, highest first
(`["shell", "enterprise", "project-local", "project-shared", "global"]`). -/
def precedenceOrder : List CLayer :=
  [.shellEnv, .enterprise, .projectLocal, .projectShared, .globalCfg]

/-- The `values` map of `doDiscover`: a file layer's value is its (string
rendering of its) settings-file entry even when empty; the shell layer is
recorded only when the environment variable is a non-empty (truthy)
string. -/
def layerValues (fileRead : CLayer → Option String) (envVal : Option String) :
    CLayer → Option String
  | .shellEnv =>
    match envVal with
    | some s => if s.isEmpty then none else some s
    | none => none
  | L => fileRead L

/-- The `sources` list of `doDiscover`: file layers whose settings entry is
neither `undefined` nor `null`, then the shell layer when its variable is
truthy. -/
def presentSources (fileRead : CLayer → Option String) (envVal : Option String) :
    List CLayer :=
  fileLayers.filter (fun L => (fileRead L).isSome) ++
    (match envVal with
     | some s => if s.isEmpty then [] else [CLayer.shellEnv]
     | none => [])

/-- Result of resolving one variable: the winning value, the winning
layer (`none` models the loop ending with `wsrc = ""`), and the conflict
flag. -/
structure ResolvedVar where
  value : String
  winningLayer : Option CLayer
  conflicting : Bool
  deriving DecidableEq

/-- Per-variable resolution, embedding the body of the `for (const varName
of VARS)` loop of `doDiscover` (discover.js lines 92-146): empty `sources`
reports the variable as not set; otherwise the winner is the first layer in
precedence order whose value is truthy (JS `if (values[src])`), and
`conflicting` holds when more than one source is present. -/
def resolveVar (fileRead : CLayer → Option String) (envVal : Option String) :
    Option ResolvedVar :=
  let sources := presentSources fileRead envVal
  if sources.isEmpty then none
  else
    let values := layerValues fileRead envVal
    match precedenceOrder.find? (fun L => !((values L).getD "").isEmpty) with
    | some w => some ⟨(values w).getD "", some w, decide (1 < sources.length)⟩
    | none => some ⟨"", none, decide (1 < sources.length)⟩

/-! ### JSON documents and `jsonRead` (utils.js) -/

/-- JSON values, as pure data trees.  Numbers are modelled as integers
(no claim in scope depends on non-integral numbers); prototype-inherited
properties of the corresponding JavaScript values are outside the model. -/
inductive Json where
  | null
  | bool (b : Bool)
  | num (n : Int)
  | str (s : String)
  | arr (elems : List Json)
  | obj (entries : List (String × Json))

/-- First entry of an association list with the given key
(JS object property lookup; parsed JSON objects have distinct keys). -/
def jGet (k : String) : List (String × Json) → Option Json
  | [] => none
  | (k', v) :: t => if k' = k then some v else jGet k t

/-- One step of `obj?.[key]`: property access on a JSON value.  Objects
yield the named entry; arrays yield the element at a canonical numeric
index; every other case (including `null`, via optional chaining) is
`undefined`. -/
def keyAccess (k : String) : Json → Option Json
  | .obj entries => jGet k entries
  | .arr elems =>
    match k.toNat? with
    | some i => if toString i = k then elems.get? i else none
    | none => none
  | _ => none

/-- The reduce of `jsonRead`:
`keyPath.split(".").reduce((obj, key) => obj?.[key], data)`,
with `undefined` propagating through the chain. -/
def walkPath : List String → Json → Option Json
  | [], d => some d
  | k :: ks, d =>
    match keyAccess k d with
    | some v => walkPath ks v
    | none => none

/-- `keyPath.split(".")` on character lists: split at every `'.'`; the
empty string yields one empty component, like the JavaScript split. -/
def splitDot : List Char → List (List Char)
  | [] => [[]]
  | c :: t =>
    if c = '.' then [] :: splitDot t
    else
      match splitDot t with
      | h :: r => (c :: h) :: r
      | [] => [[c]]

/-- The components of a dotted key path, as strings. -/
def splitKeys (kp : String) : List String :=
  (splitDot kp.data).map fun l => ⟨l⟩

/-- `jsonRead` (utils.js lines 47-54) over an abstract document read:
`none` models a missing file (`readFileSync` throws), `some none` models a
file that fails `JSON.parse`; both fall into the `catch` and return
`undefined`.  Otherwise the dotted key path is walked through the parsed
document. -/
def jsonRead (docRead : Option (Option Json)) (keyPath : String) : Option Json :=
  match docRead with
  | none => none
  | some none => none
  | some (some data) => walkPath (splitKeys keyPath) data

/-! ### `settingsSetEnv` (utils.js) -/

/-- JavaScript truthiness of a JSON value. -/
def jsTruthy : Json → Bool
  | .null => false
  | .bool b => b
  | .num n => n != 0
  | .str s => !s.isEmpty
  | .arr _ => true
  | .obj _ => true

/-- Property assignment `o[k] = v` on a JSON object: the existing key's
slot is updated in place, a new key is appended (JS insertion order). -/
def jSet (k : String) (v : Json) : List (String × Json) → List (String × Json)
  | [] => [(k, v)]
  | (k', v') :: t => if k' = k then (k, v) :: t else (k', v') :: jSet k v t

/-- `Object.assign(env, pairs)`: assign each pair in order into the
environment object. -/
def assignPairs (e : List (String × Json)) (pairs : List (String × String)) :
    List (String × Json) :=
  pairs.foldl (fun acc kv => jSet kv.1 (Json.str kv.2) acc) e

/-- `settingsSetEnv` (utils.js lines 56-67) at the document level, on a
parsed top-level object: `if (!data.env) data.env = {}` replaces a missing
or falsy `env` by a fresh object, then `Object.assign(data.env, pairs)`
merges the pairs.  (A truthy non-object `env`, onto which JavaScript would
graft properties via a wrapper, is outside the model and excluded by the
theorems' well-formedness hypothesis.) -/
def settingsSetEnv (data : List (String × Json)) (pairs : List (String × String)) :
    List (String × Json) :=
  let data1 :=
    match jGet "env" data with
    | some v => if jsTruthy v then data else jSet "env" (Json.obj []) data
    | none => jSet "env" (Json.obj []) data
  match jGet "env" data1 with
  | some (Json.obj e) => jSet "env" (Json.obj (assignPairs e pairs)) data1
  | _ => data1

/-! ### `findProjectRoot` (utils.js) -/

/-- Directories are modelled as component lists with the deepest component
first, so `path.dirname` is `List.tail` and the filesystem root is `[]`. -/
abbrev DirPath := List String

/-- `findProjectRoot` (utils.js lines 97-106): walk upward while the
directory is not the filesystem root (`dir !== path.dirname(dir)`); a
directory containing `.git` wins, else one containing `.claude` provided
it is not the home directory; the root itself is never examined. -/
def findProjectRoot (hasGit hasClaude : DirPath → Bool) (home : DirPath) :
    DirPath → Option DirPath
  | [] => none
  | d@(_ :: parent) =>
    if hasGit d then some d
    else if hasClaude d && d != home then some d
    else findProjectRoot hasGit hasClaude home parent

/-- The chain of directories visited by the upward walk: the start
directory and its parents, excluding the filesystem root. -/
def upwardChain : DirPath → List DirPath
  | [] => []
  | d@(_ :: parent) => d :: upwardChain parent

/-- The acceptance test of the walk, as the specification phrases it:
a version-control marker, or a project-local marker outside the home
directory. -/
def projectMarker (hasGit hasClaude : DirPath → Bool) (home : DirPath)
    (d : DirPath) : Bool :=
  hasGit d || (hasClaude d && d != home)

/-! ### `writeShellRc` (utils.js)

`writeShellRc` deletes every match of the global regular expression
`/\n?# ── Portkey \+ Claude Code[\s\S]*?# ── End Portkey \+ Claude Code ──\n?/g`
from the previous file content (a missing file reads as empty) and appends
`"\n" + block + "\n"`.  The regex is modelled by an explicit leftmost-match
scanner: at each position an optional newline, the begin marker, a lazy
(shortest) body up to the earliest end marker, and an optional trailing
newline; on a match the scan resumes after the match. -/

def rcBegin : List Char := "# ── Portkey + Claude Code".data

def rcEnd : List Char := "# ── End Portkey + Claude Code ──".data

/-- Consume an optional trailing newline (the final `\n?` of the regex). -/
def dropNl : List Char → List Char
  | '\n' :: r => r
  | r => r

/-- Lazy body: scan for the earliest occurrence of the end marker, consume
it and an optional trailing newline, and return the remainder; `none` when
no end marker follows (the regex fails at this start position). -/
def findEndConsume : List Char → Option (List Char)
  | [] => none
  | l@(_ :: t) =>
    if startsWithL rcEnd l then some (dropNl (l.drop rcEnd.length))
    else findEndConsume t

/-- Attempt the block regex at one scan position: an optional leading
newline, then the begin marker, then the lazy body.  Returns the remainder
of the string after the match.  (When the position holds a newline not
followed by the begin marker, the regex backtracks to try the marker at
the newline itself, which fails since the marker starts with `#`; the
second branch covers both cases.) -/
def matchBlockAt : List Char → Option (List Char)
  | [] => none
  | c :: t =>
    if c = '\n' && startsWithL rcBegin t then findEndConsume (t.drop rcBegin.length)
    else if startsWithL rcBegin (c :: t) then findEndConsume ((c :: t).drop rcBegin.length)
    else none

/-- Left-to-right scan deleting every match (fuel-indexed; one unit of fuel
is spent per scan step, and a match always consumes at least one
character, so `l.length` fuel suffices). -/
def scanRemove : Nat → List Char → List Char
  | 0, l => l
  | _ + 1, [] => []
  | fuel + 1, l@(c :: t) =>
    match matchBlockAt l with
    | some rest => scanRemove fuel rest
    | none => c :: scanRemove fuel t

/-- `content.replace(/\n?# ── Portkey …\n?/g, "")`. -/
def removeBlocks (l : List Char) : List Char := scanRemove l.length l

/-- Count of the matches the same scan would delete (the number of
Portkey-delimited blocks the regex recognizes in the content). -/
def scanCount : Nat → List Char → Nat
  | 0, _ => 0
  | _ + 1, [] => 0
  | fuel + 1, l@(_ :: t) =>
    match matchBlockAt l with
    | some rest => scanCount fuel rest + 1
    | none => scanCount fuel t

def countBlocks (l : List Char) : Nat := scanCount l.length l

/-- `writeShellRc` (utils.js lines 307-321) at the content level: remove
every existing Portkey block, then append a newline, the block, and a
newline. -/
def writeShellRc (content block : List Char) : List Char :=
  removeBlocks content ++ '\n' :: (block ++ ['\n'])

/-! ### OAuth header encoding (from `doSetup`, setup.js lines 322-326)

`JSON.stringify({ forward_headers: names })` followed by
`Buffer.from(json).toString("base64")`, emitted as the two-line header
`x-portkey-api-key:<key>\nx-portkey-config:<base64>`. -/

/-- Hexadecimal digit, for `\u00XX` escapes. -/
def hexDigit (n : Nat) : Char :=
  "0123456789abcdef".data.getD n '0'

/-- `JSON.stringify` escaping of one string character. -/
def escapeChar (ch : Char) : List Char :=
  if ch = '"' then ['\\', '"']
  else if ch = '\\' then ['\\', '\\']
  else if ch = '\x08' then ['\\', 'b']
  else if ch = '\t' then ['\\', 't']
  else if ch = '\n' then ['\\', 'n']
  else if ch = '\x0c' then ['\\', 'f']
  else if ch = '\r' then ['\\', 'r']
  else if ch.toNat < 32 then
    ['\\', 'u', '0', '0', hexDigit (ch.toNat / 16), hexDigit (ch.toNat % 16)]
  else [ch]

def escapeChars : List Char → List Char
  | [] => []
  | ch :: t => escapeChar ch ++ escapeChars t

/-- A JSON string literal: `"` + escaped characters + `"`. -/
def jsonQuote (s : List Char) : List Char :=
  '"' :: escapeChars s ++ ['"']

/-- Comma-join already-rendered pieces. -/
def sepComma : List (List Char) → List Char
  | [] => []
  | [x] => x
  | x :: y :: ys => x ++ ',' :: sepComma (y :: ys)

/-- The JSON text `JSON.stringify({ forward_headers: names })` produces:
`{"forward_headers":[…]}` with each name rendered as a JSON string
literal. -/
def forwardJson (names : List String) : List Char :=
  '{' :: jsonQuote "forward_headers".data ++
    ':' :: '[' :: sepComma (names.map fun n => jsonQuote n.data) ++ [']', '}']

/-- UTF-8 bytes of one character (`Buffer.from(str)` uses UTF-8). -/
def utf8Char (ch : Char) : List Nat :=
  let v := ch.toNat
  if v < 128 then [v]
  else if v < 2048 then [192 + v / 64, 128 + v % 64]
  else if v < 65536 then [224 + v / 4096, 128 + v / 64 % 64, 128 + v % 64]
  else [240 + v / 262144, 128 + v / 4096 % 64, 128 + v / 64 % 64, 128 + v % 64]

def utf8Bytes : List Char → List Nat
  | [] => []
  | c :: t => utf8Char c ++ utf8Bytes t

/-- The base64 alphabet. -/
def b64Alphabet : List Char :=
  "ABCDEFGHIJKLMNOPQRSTUVWXYZabcdefghijklmnopqrstuvwxyz0123456789+/".data

def b64Char (i : Nat) : Char := b64Alphabet.getD i 'A'

/-- Standard base64 of a byte sequence, with `=` padding
(`Buffer.prototype.toString("base64")`). -/
def base64Encode : List Nat → List Char
  | a :: b :: c :: r =>
    b64Char (a / 4) :: b64Char (a % 4 * 16 + b / 16) ::
      b64Char (b % 16 * 4 + c / 64) :: b64Char (c % 64) :: base64Encode r
  | [a, b] => [b64Char (a / 4), b64Char (a % 4 * 16 + b / 16), b64Char (b % 16 * 4), '=']
  | [a] => [b64Char (a / 4), b64Char (a % 4 * 16), '=', '=']
  | [] => []

/-- The two-token OAuth header of setup.js lines 322-326:
`x-portkey-api-key:<key>` and `x-portkey-config:<base64 JSON>` joined by a
newline. -/
def encodeOauthHeaders (names : List String) (key : String) : String :=
  ⟨apiKeyTok ++ key.data ++
    '\n' :: cfgTok ++ base64Encode (utf8Bytes (forwardJson names))⟩

/-! ### Spec-modelled OAuth payload decoding

No code in the repository parses the OAuth payload back: `readExistingConfig`
only classifies the header line as `mode = "oauth"`.  The following
definitions are *modelled from the spec*: "the value is expected to be
base64-encoded JSON whose `forward_headers` field yields
`forwardedHeaderNames`".  They decode base64, decode the bytes as text
(the ASCII fragment of UTF-8, which covers header names), and parse the
exact JSON shape produced by the encoder (escape-free string literals). -/

/-- Modelled from the spec: index of a character in the base64 alphabet. -/
def b64IndexGo : List Char → Nat → Char → Option Nat
  | [], _, _ => none
  | a :: t, n, ch => if a == ch then some n else b64IndexGo t (n + 1) ch

/-- Modelled from the spec: inverse of `b64Char`. -/
def b64Index (ch : Char) : Option Nat := b64IndexGo b64Alphabet 0 ch

/-- Modelled from the spec: base64 decoding with `=` padding; `none` on a
malformed payload (decode failure degrades, never raises). -/
def base64Decode : List Char → Option (List Nat)
  | [] => some []
  | c1 :: c2 :: c3 :: c4 :: r =>
    match b64Index c1, b64Index c2 with
    | some i1, some i2 =>
      if c3 = '=' then
        if c4 = '=' && r.isEmpty then some [i1 * 4 + i2 / 16] else none
      else
        match b64Index c3 with
        | some i3 =>
          if c4 = '=' then
            if r.isEmpty then some [i1 * 4 + i2 / 16, i2 % 16 * 16 + i3 / 4] else none
          else
            match b64Index c4 with
            | some i4 =>
              (base64Decode r).map fun rest =>
                (i1 * 4 + i2 / 16) :: (i2 % 16 * 16 + i3 / 4) :: (i3 % 4 * 64 + i4) :: rest
            | none => none
        | none => none
    | _, _ => none
  | _ => none

/-- Modelled from the spec: text decoding of the payload bytes, restricted
to the ASCII fragment of UTF-8 (header names are ASCII). -/
def asciiDecode : List Nat → Option (List Char)
  | [] => some []
  | b :: t =>
    if b < 128 then (asciiDecode t).map (Char.ofNat b :: ·) else none

/-- Modelled from the spec: scan an escape-free JSON string literal body up
to the closing quote, returning the body and the remainder. -/
def parseQuotedGo : List Char → List Char → Option (List Char × List Char)
  | [], _ => none
  | c :: t, acc =>
    if c = '"' then some (acc.reverse, t)
    else if c = '\\' then none
    else parseQuotedGo t (c :: acc)

/-- Modelled from the spec: parse one JSON string literal. -/
def parseQuoted : List Char → Option (List Char × List Char)
  | [] => none
  | c :: t => if c = '"' then parseQuotedGo t [] else none

/-- Modelled from the spec: parse the non-empty comma-separated string
items of the `forward_headers` array, expecting the terminating `]` and
`}` and nothing after (fuel-indexed; one item consumes at least one
character, so the remaining length bounds the item count). -/
def parseItems : Nat → List Char → Option (List String)
  | 0, _ => none
  | fuel + 1, l =>
    match parseQuoted l with
    | some (s, rest) =>
      match rest with
      | [] => none
      | r :: r2 =>
        if r = ',' then (parseItems fuel r2).map (⟨s⟩ :: ·)
        else if r = ']' then (if r2 = ['}'] then some [⟨s⟩] else none)
        else none
    | none => none

/-- Modelled from the spec: parse the array of the exact JSON shape
`{"forward_headers":[…]}` after its opening literal. -/
def parseForwardArr : List Char → Option (List String)
  | [] => none
  | c :: t =>
    if c = ']' then (if t = ['}'] then some [] else none)
    else parseItems (c :: t).length (c :: t)

/-- The opening literal `{"forward_headers":[` of the payload JSON. -/
def forwardOpen : List Char := "\x7b\"forward_headers\":[".data

/-- Modelled from the spec: full payload decoding — base64, then text,
then the `forward_headers` field of the JSON object; any failure yields
`none`. -/
def specForwardHeaders (v : List Char) : Option (List String) :=
  match base64Decode v with
  | none => none
  | some bytes =>
    match asciiDecode bytes with
    | none => none
    | some chars =>
      if startsWithL forwardOpen chars then
        parseForwardArr (chars.drop forwardOpen.length)
      else none

/-! ### Claim-side helper predicates -/

/-- A printable-ASCII character that `JSON.stringify` renders literally
(no quote, no backslash, no control escape). -/
def plainChar (c : Char) : Bool :=
  32 ≤ c.toNat && c.toNat < 128 && c != '"' && c != '\\'

/-- Characters of ordinary API keys (alphanumerics, dash, underscore);
in particular no colon, so no routing token can occur inside such a key. -/
def keyChar (c : Char) : Bool :=
  c.isAlphanum || c == '-' || c == '_'

/-- First value of a key in a string-pair list (claim-side view of the
`pairs` object of `settingsSetEnv`). -/
def sLookup (k : String) : List (String × String) → Option String
  | [] => none
  | (k', v) :: t => if k' = k then some v else sLookup k t

/-- Claim-side key-path presence: the document has the requested dotted
key path (each component is an own data member of the value so far). -/
def hasPathB : List String → Json → Bool
  | [], _ => true
  | k :: ks, d =>
    match keyAccess k d with
    | some v => hasPathB ks v
    | none => false

/-! ## General lemmas about the scanning primitives -/

theorem sw_iff {p l : List Char} : startsWithL p l = true ↔ p <+: l := by
  induction p generalizing l with
  | nil => simp [startsWithL]
  | cons a as ih =>
    cases l with
    | nil => simp [startsWithL]
    | cons b bs =>
      rw [startsWithL, Bool.and_eq_true, beq_iff_eq, ih, List.cons_prefix_cons]

theorem cs_iff {p l : List Char} (hp : p ≠ []) :
    containsSub p l = true ↔ p <:+: l := by
  induction l with
  | nil =>
    cases p with
    | nil => simp at hp
    | cons a as => simp [containsSub, startsWithL]
  | cons b bs ih =>
    rw [containsSub, Bool.or_eq_true, sw_iff, ih, List.infix_cons_iff]

/-- A substring occurrence transports membership: if some character of the
pattern is missing from the text, the pattern does not occur. -/
theorem cs_false_of_not_mem {p l : List Char} (c : Char) (hc : c ∈ p)
    (hl : c ∉ l) : containsSub p l = false := by
  rw [Bool.eq_false_iff]
  intro h
  have hp : p ≠ [] := by rintro rfl; simp at hc
  exact hl ((cs_iff hp).mp h |>.subset hc)

/-- A newline-free pattern anchored before a newline barrier cannot see
past it. -/
theorem sw_newline {p : List Char} (hnl : '\n' ∉ p) (a b : List Char) :
    startsWithL p (a ++ '\n' :: b) = startsWithL p a := by
  induction p generalizing a with
  | nil => simp [startsWithL]
  | cons x xs ih =>
    cases a with
    | nil =>
      simp only [List.nil_append, startsWithL]
      have : (x == '\n') = false := by
        simp only [beq_eq_false_iff_ne, ne_eq]
        intro h; exact hnl (h ▸ List.mem_cons_self x xs)
      simp [this]
    | cons y ys =>
      simp only [List.cons_append, startsWithL, List.append_eq]
      rw [ih (fun h => hnl (List.mem_cons_of_mem x h))]

/-- Occurrences of a newline-free pattern split at a newline barrier. -/
theorem cs_newline_split {p : List Char} (hp : p ≠ []) (hnl : '\n' ∉ p)
    (a b : List Char) :
    containsSub p (a ++ '\n' :: b) = (containsSub p a || containsSub p b) := by
  induction a with
  | nil =>
    cases p with
    | nil => simp at hp
    | cons x xs =>
      have hx : (x == '\n') = false := by
        simp only [beq_eq_false_iff_ne, ne_eq]
        intro h; exact hnl (h ▸ List.mem_cons_self x xs)
      simp [containsSub, startsWithL, hx]
  | cons c cs ih =>
    simp only [List.cons_append, containsSub, List.append_eq]
    rw [← List.cons_append, sw_newline hnl, ih, Bool.or_assoc]

theorem sw_self_append (p x : List Char) : startsWithL p (p ++ x) = true :=
  sw_iff.mpr (List.prefix_append p x)

theorem cs_self_append {tok : List Char} (x : List Char) (h : tok ≠ []) :
    containsSub tok (tok ++ x) = true := by
  cases tok with
  | nil => simp at h
  | cons a as =>
    rw [List.cons_append, containsSub, ← List.cons_append, sw_self_append]
    rfl

theorem tokenValueAt_self {tok : List Char} (c : Char) (rest : List Char)
    (hc : jsSpace c = false) (hrest : ∀ d ∈ rest, jsSpace d = false) :
    tokenValueAt tok (tok ++ c :: rest) = some (c :: rest) := by
  rw [tokenValueAt, if_pos (sw_self_append tok _), List.drop_left]
  have ht : rest.takeWhile (fun d => !jsSpace d) = rest :=
    List.takeWhile_eq_self_iff.mpr (by intro x hx; simp [hrest x hx])
  simp [hc, ht]

/-- The leftmost `/tok(\S+)/` match on `tok ++ value` is the value itself
when the value is a non-empty whitespace-free run. -/
theorem matchTokenL_self {tok : List Char} (htok : tok ≠ []) (c : Char) (rest : List Char)
    (hc : jsSpace c = false) (hrest : ∀ d ∈ rest, jsSpace d = false) :
    matchTokenL tok (tok ++ c :: rest) = some (c :: rest) := by
  cases tok with
  | nil => simp at htok
  | cons a as =>
    rw [List.cons_append, matchTokenL, ← List.cons_append,
      tokenValueAt_self c rest hc hrest]

/-- Scanning for a newline-free token skips a head that does not contain
it, across a newline barrier. -/
theorem matchTokenL_newline {tok : List Char} (htok : tok ≠ []) (hnl : '\n' ∉ tok)
    (a b : List Char) (ha : containsSub tok a = false) :
    matchTokenL tok (a ++ '\n' :: b) = matchTokenL tok b := by
  induction a with
  | nil =>
    rw [List.nil_append, matchTokenL, tokenValueAt]
    rw [show ('\n' :: b) = ([] ++ '\n' :: b) from rfl, sw_newline hnl]
    cases tok with
    | nil => simp at htok
    | cons x xs => rfl
  | cons c a' ih =>
    rw [containsSub, Bool.or_eq_false_iff] at ha
    rw [List.cons_append, matchTokenL, tokenValueAt, ← List.cons_append,
      sw_newline hnl, ha.1]
    exact ih ha.2

/-! ## Decode characterization lemmas -/

/-- The provider token does not occur across the `x-portkey-config:`
literal: it occurs in `cfgTok ++ id` exactly when it occurs in `id`. -/
theorem cs_provTok_cfgTok (id : List Char) :
    containsSub provTok (cfgTok ++ id) = containsSub provTok id := by
  simp [cfgTok, provTok, containsSub, startsWithL]

/-- Decoding a header built from the provider token and a whitespace-free
value strips every leading `@` of the value. -/
theorem decode_provider_append (v : List Char) (hws : ∀ c ∈ v, jsSpace c = false) :
    decodeRoutingL (provTok ++ v) = .provider ⟨stripAts v⟩ := by
  cases v with
  | nil => decide
  | cons c rest =>
    rw [decodeRoutingL, cs_self_append _ (by decide), if_pos rfl,
      matchTokenL_self (by decide) c rest (hws c (List.mem_cons_self c rest))
        (fun d hd => hws d (List.mem_cons_of_mem c hd))]
    rfl

/-- Decoding a header built from the config token and a non-empty
whitespace-free id that does not contain the provider token applies the
`pc-`/length-30 classification to the id itself. -/
theorem decode_config_append (id : List Char) (hne : id ≠ [])
    (hws : ∀ c ∈ id, jsSpace c = false) (hpv : containsSub provTok id = false) :
    decodeRoutingL (cfgTok ++ id) =
      if (startsWithL pcPre id || decide (id.length < 30)) = true then
        .config ⟨id⟩
      else .oauth := by
  cases id with
  | nil => exact absurd rfl hne
  | cons c rest =>
    rw [decodeRoutingL, cs_provTok_cfgTok, hpv, if_neg (by simp),
      cs_self_append _ (by decide), if_pos rfl,
      matchTokenL_self (by decide) c rest (hws c (List.mem_cons_self c rest))
        (fun d hd => hws d (List.mem_cons_of_mem c hd))]
    rfl

/-- Stripping leading `@` is the identity on a value that does not start
with `@`. -/
theorem stripAts_of_head_ne {l : List Char} (h : l.head? ≠ some '@') :
    stripAts l = l := by
  cases l with
  | nil => rfl
  | cons c rest =>
    have hc : (c == '@') = false := by
      simp only [beq_eq_false_iff_ne, ne_eq]
      intro hEq; exact h (by simp [hEq])
    simp [stripAts, List.dropWhile_cons, hc]

theorem stripAts_at_cons (x : List Char) : stripAts ('@' :: x) = stripAts x := by
  simp [stripAts, List.dropWhile_cons]

/-! ## Claim C1 — decode as left inverse of encode for provider and config -/

/-- C1 (counterexample): decode is not a left inverse of encode for every
non-empty whitespace-free config id.  A 30-character id without the `pc-`
prefix decodes as `oauth`, and an id containing the provider token decodes
as `provider`; neither reproduces the original id. -/
theorem c1_counterexample :
    decodeRoutingHeader (encodeConfigHeader "abcdefghijklmnopqrstuvwxyz0123") =
      .oauth ∧
    SourceIntent.oauth ≠ .config "abcdefghijklmnopqrstuvwxyz0123" ∧
    decodeRoutingHeader (encodeConfigHeader "x-portkey-provider:e") = .provider "e" ∧
    SourceIntent.provider "e" ≠ .config "x-portkey-provider:e" := by
  decide

/-- C1 (amended): decode is the exact left inverse of encode for the
provider variant on every non-empty whitespace-free slug not beginning
with `@`; for the config variant this holds exactly on the non-empty
whitespace-free ids that the decode heuristic classifies as configs —
ids starting with `pc-` or shorter than 30 characters — provided the id
does not contain the `x-portkey-provider:` token. -/
theorem c1_roundtrip_amended :
    (∀ slug : String, slug.data ≠ [] → (∀ c ∈ slug.data, jsSpace c = false) →
      slug.data.head? ≠ some '@' →
      decodeRoutingHeader (encodeProviderHeader slug) = .provider slug) ∧
    (∀ id : String, id.data ≠ [] → (∀ c ∈ id.data, jsSpace c = false) →
      containsSub provTok id.data = false →
      (startsWithL pcPre id.data || decide (id.data.length < 30)) = true →
      decodeRoutingHeader (encodeConfigHeader id) = .config id) := by
  constructor
  · intro slug hne hws hat
    show decodeRoutingL (provTok ++ '@' :: stripAts slug.data) = .provider slug
    rw [decode_provider_append ('@' :: stripAts slug.data) ?ws]
    case ws =>
      intro c hc
      rcases List.mem_cons.mp hc with rfl | hc
      · decide
      · exact hws c (List.dropWhile_sublist _ |>.subset hc)
    rw [stripAts_at_cons, stripAts_of_head_ne hat, stripAts_of_head_ne hat]
  · intro id hne hws hpv hcl
    show decodeRoutingL (cfgTok ++ id.data) = .config id
    rw [decode_config_append id.data hne hws hpv, if_pos hcl]

/-- C1 (witness): the amended round trip at `provider{slug:"anthropic"}`
and `config{id:"pc-12345"}`. -/
theorem c1_roundtrip_witness :
    decodeRoutingHeader (encodeProviderHeader "anthropic") = .provider "anthropic" ∧
    decodeRoutingHeader (encodeConfigHeader "pc-12345") = .config "pc-12345" :=
  ⟨c1_roundtrip_amended.1 "anthropic" (by decide) (by decide) (by decide),
   c1_roundtrip_amended.2 "pc-12345" (by decide) (by decide) (by decide) (by decide)⟩

/-! ## Claim C3 — decode classification of a header line -/

/-- C3: decode classifies a header line by the provider token first, then
by the config token with the `pc-`-prefix / shorter-than-30 heuristic on
the token's captured value (the empty value when the capture fails), else
`Unknown`; the empty line decodes to `Unknown`. -/
theorem c3_decode_classification (h : String) :
    (containsSub provTok h.data = true →
      decodeRoutingHeader h =
        .provider ⟨stripAts ((matchTokenL provTok h.data).getD [])⟩) ∧
    (containsSub provTok h.data = false → containsSub cfgTok h.data = true →
      decodeRoutingHeader h =
        (if (startsWithL pcPre ((matchTokenL cfgTok h.data).getD []) ||
            decide (((matchTokenL cfgTok h.data).getD []).length < 30)) = true then
          .config ⟨(matchTokenL cfgTok h.data).getD []⟩
        else .oauth)) ∧
    (containsSub provTok h.data = false → containsSub cfgTok h.data = false →
      decodeRoutingHeader h = .unknown) ∧
    decodeRoutingHeader "" = .unknown := by
  refine ⟨?_, ?_, ?_, by decide⟩
  · intro h1
    simp [decodeRoutingHeader, decodeRoutingL, h1]
  · intro h1 h2
    simp [decodeRoutingHeader, decodeRoutingL, h1, h2]
  · intro h1 h2
    simp [decodeRoutingHeader, decodeRoutingL, h1, h2]

/-- C3 (witness): the classification applied to `x-portkey-config:pc-99`. -/
theorem c3_decode_witness :
    decodeRoutingHeader "x-portkey-config:pc-99" = .config "pc-99" :=
  ((c3_decode_classification "x-portkey-config:pc-99").2.1 (by decide)
    (by decide)).trans (by decide)

/-! ## Claim C5 — provider-token decode strips leading `@` -/

/-- C5 (counterexample): the decode of a provider token strips *all*
leading `@` characters, not a single one: the token value `@@x` decodes to
slug `x`, not `@x` as the claim states. -/
theorem c5_counterexample :
    decodeRoutingHeader "x-portkey-provider:@@x" = .provider "x" ∧
    SourceIntent.provider "x" ≠ .provider "@x" := by
  decide

/-- C5 (amended): for a header built from the provider token and a
whitespace-free value, decode returns provider mode with the value's
leading `@` characters all stripped (so `@@x` decodes to `x`, and `ant`
decodes to `ant`). -/
theorem c5_provider_amended (v : String) (hws : ∀ c ∈ v.data, jsSpace c = false) :
    decodeRoutingHeader ⟨provTok ++ v.data⟩ = .provider ⟨stripAts v.data⟩ :=
  decode_provider_append v.data hws

/-- C5 (witness): the amended decode at the token values `@@x` and `ant`. -/
theorem c5_provider_witness :
    decodeRoutingHeader ⟨provTok ++ "@@x".data⟩ = .provider "x" ∧
    decodeRoutingHeader ⟨provTok ++ "ant".data⟩ = .provider "ant" :=
  ⟨(c5_provider_amended "@@x" (by decide)).trans (by decide),
   (c5_provider_amended "ant" (by decide)).trans (by decide)⟩

/-! ## Claim C2 — fixed-precedence resolution with conflict flag -/

/-- Unfolded form of `resolveVar`, for case analysis. -/
theorem resolveVar_eq (fileRead : CLayer → Option String) (envVal : Option String) :
    resolveVar fileRead envVal =
      if (presentSources fileRead envVal).isEmpty then none
      else
        match precedenceOrder.find?
            (fun L => !((layerValues fileRead envVal L).getD "").isEmpty) with
        | some w =>
          some ⟨(layerValues fileRead envVal w).getD "", some w,
            decide (1 < (presentSources fileRead envVal).length)⟩
        | none =>
          some ⟨"", none, decide (1 < (presentSources fileRead envVal).length)⟩ :=
  rfl

/-- A per-layer assignment refuting the claim: `project-local` holds the
empty string and `global` holds `"Y"`. -/
def c2FileRead : CLayer → Option String
  | .projectLocal => some ""
  | .globalCfg => some "Y"
  | _ => none

/-- C2 (counterexample): with `project-local` present with value `""` and
`global` present with value `"Y"`, the first present layer in precedence
order is `project-local`, but the code reports value `"Y"` with winning
layer `global` (the truthiness test of the winner loop skips the
empty-string value), so the reported winner is not the first present layer
and the reported value is not that layer's value. -/
theorem c2_counterexample :
    precedenceOrder.find? (fun L => (presentSources c2FileRead none).contains L) =
      some CLayer.projectLocal ∧
    resolveVar c2FileRead none = some ⟨"Y", some CLayer.globalCfg, true⟩ := by
  decide

/-- C2 (amended): resolution reports the variable absent exactly when no
layer is present; otherwise the winning layer is the first layer in the
fixed order shell-env > enterprise > project-local > project-shared >
global whose present value is non-empty (present layers with empty-string
values are skipped by the winner search and only counted for conflicts;
when every present value is empty no winning layer is reported), the
reported value is the winning layer's value, the winner is one of the
present layers, and `conflicting` is true exactly when more than one layer
is present, even when the present values are equal strings. -/
theorem c2_resolve_amended (fileRead : CLayer → Option String) (envVal : Option String) :
    (resolveVar fileRead envVal = none ↔ presentSources fileRead envVal = []) ∧
    ∀ r, resolveVar fileRead envVal = some r →
      r.conflicting = decide (1 < (presentSources fileRead envVal).length) ∧
      r.winningLayer =
        precedenceOrder.find?
          (fun L => !((layerValues fileRead envVal L).getD "").isEmpty) ∧
      ∀ w, r.winningLayer = some w →
        some r.value = layerValues fileRead envVal w ∧
        w ∈ presentSources fileRead envVal := by
  rw [resolveVar_eq]
  by_cases he : (presentSources fileRead envVal).isEmpty
  · rw [if_pos he]
    refine ⟨⟨fun _ => by simpa using he, fun _ => rfl⟩, ?_⟩
    intro r hr
    exact absurd hr (by simp)
  · rw [if_neg he]
    have hne : presentSources fileRead envVal ≠ [] := by simpa using he
    cases hf : precedenceOrder.find?
        (fun L => !((layerValues fileRead envVal L).getD "").isEmpty) with
    | some w =>
      refine ⟨⟨fun h => absurd h (by simp), fun h => absurd h hne⟩, ?_⟩
      intro r hr
      rw [Option.some_inj] at hr
      subst hr
      refine ⟨rfl, rfl, ?_⟩
      intro w' hw'
      rw [Option.some_inj] at hw'
      subst hw'
      have hp := List.find?_some hf
      cases hv : layerValues fileRead envVal w with
      | none => rw [hv] at hp; exact absurd hp (by decide)
      | some s =>
        rw [hv] at hp
        refine ⟨by simp [hv], ?_⟩
        cases w with
        | shellEnv =>
          cases henv : envVal with
          | none =>
            rw [henv] at hv
            simp [layerValues] at hv
          | some s0 =>
            rw [henv] at hv
            by_cases hs0 : s0.isEmpty
            · simp [layerValues, hs0] at hv
            · simp [presentSources, henv, hs0]
        | enterprise =>
          have hfr : fileRead .enterprise = some s := hv
          simp [presentSources, List.mem_filter, hfr]
          exact Or.inl (by decide)
        | projectLocal =>
          have hfr : fileRead .projectLocal = some s := hv
          simp [presentSources, List.mem_filter, hfr]
          exact Or.inl (by decide)
        | projectShared =>
          have hfr : fileRead .projectShared = some s := hv
          simp [presentSources, List.mem_filter, hfr]
          exact Or.inl (by decide)
        | globalCfg =>
          have hfr : fileRead .globalCfg = some s := hv
          simp [presentSources, List.mem_filter, hfr]
          exact Or.inl (by decide)
    | none =>
      refine ⟨⟨fun h => absurd h (by simp), fun h => absurd h hne⟩, ?_⟩
      intro r hr
      rw [Option.some_inj] at hr
      subst hr
      refine ⟨rfl, rfl, ?_⟩
      intro w hw
      exact absurd hw (by simp)

/-- Present layers for the witness: shell env `"X"`, global `"Y"` (the
scenario of the specification's testable properties). -/
def c2WitnessRead : CLayer → Option String
  | .globalCfg => some "Y"
  | _ => none

/-- C2 (witness): the amended resolution at shell-env `"X"` and global
`"Y"` reports value `"X"`, winner shell-env, conflicting. -/
theorem c2_resolve_witness :
    resolveVar c2WitnessRead (some "X") ≠ none ∧
    ∀ r, resolveVar c2WitnessRead (some "X") = some r →
      r.conflicting = true ∧ r.winningLayer = some CLayer.shellEnv := by
  constructor
  · intro h
    have := (c2_resolve_amended c2WitnessRead (some "X")).1.mp h
    simp [presentSources, c2WitnessRead, fileLayers] at this
  · intro r hr
    obtain ⟨hc, hw, _⟩ := (c2_resolve_amended c2WitnessRead (some "X")).2 r hr
    refine ⟨?_, ?_⟩
    · rw [hc]; decide
    · rw [hw]; decide

/-! ## Claim C8 — project-root discovery -/

/-- C8: `findProjectRoot` returns the first directory, walking upward from
the start through its parents and stopping short of the filesystem root,
that contains a `.git` marker or contains a `.claude` marker while not
being the home directory; `none` when no directory of the upward chain
qualifies. -/
theorem c8_findProjectRoot (hasGit hasClaude : DirPath → Bool) (home : DirPath)
    (start : DirPath) :
    findProjectRoot hasGit hasClaude home start =
      (upwardChain start).find? (projectMarker hasGit hasClaude home) := by
  induction start with
  | nil => rfl
  | cons c parent ih =>
    rw [findProjectRoot, upwardChain, List.find?_cons]
    by_cases hg : hasGit (c :: parent)
    · simp [projectMarker, hg]
    · by_cases hc : (hasClaude (c :: parent) && (c :: parent) != home) = true
      · simp only [hg, if_false, hc, if_true]
        simp [projectMarker, hg, hc]
      · simp only [hg, if_false, hc, if_true]
        simp only [projectMarker, hg, hc, Bool.false_or]
        simp [ih]

/-! ## Claim C7 — `jsonRead` is total and absent on every failure -/

/-- C7: the file-backed layer read is total — it is a plain function into
`Option`, every failure path (missing file, unparseable document, missing
dotted key path) returning `none` as a normal result — and for a parsed
document the result is absent exactly when the document lacks the
requested dotted key path. -/
theorem c7_jsonRead_absent (docRead : Option (Option Json)) (kp : String) :
    (docRead = none → jsonRead docRead kp = none) ∧
    (docRead = some none → jsonRead docRead kp = none) ∧
    (∀ d, docRead = some (some d) →
      (jsonRead docRead kp = none ↔ hasPathB (splitKeys kp) d = false)) := by
  refine ⟨?_, ?_, ?_⟩
  · rintro rfl; rfl
  · rintro rfl; rfl
  · rintro d rfl
    show walkPath (splitKeys kp) d = none ↔ hasPathB (splitKeys kp) d = false
    induction splitKeys kp generalizing d with
    | nil => simp [walkPath, hasPathB]
    | cons k ks ih =>
      rw [walkPath, hasPathB]
      cases keyAccess k d with
      | none => simp
      | some v => exact ih v

/-- C7 (witness): the absence equivalence and the missing-file case at a
concrete document and path. -/
theorem c7_jsonRead_witness :
    jsonRead (some (some (Json.obj []))) "env.ANTHROPIC_BASE_URL" = none ∧
    jsonRead none "env.ANTHROPIC_BASE_URL" = none :=
  ⟨((c7_jsonRead_absent (some (some (Json.obj []))) "env.ANTHROPIC_BASE_URL").2.2 _
      rfl).mpr (by rfl),
   (c7_jsonRead_absent none "env.ANTHROPIC_BASE_URL").1 rfl⟩


/-! ## Claim C10 — `settingsSetEnv` changes only the `env` object -/

theorem jGet_jSet_self (k : String) (v : Json) (l : List (String × Json)) :
    jGet k (jSet k v l) = some v := by
  induction l with
  | nil => simp [jSet, jGet]
  | cons p t ih =>
    obtain ⟨pk, pv⟩ := p
    rw [jSet]
    by_cases hp : pk = k
    · rw [if_pos hp, jGet, if_pos rfl]
    · rw [if_neg hp, jGet, if_neg hp]
      exact ih

theorem jGet_jSet_other {k k' : String} (hkk : k' ≠ k) (v : Json)
    (l : List (String × Json)) : jGet k' (jSet k v l) = jGet k' l := by
  induction l with
  | nil => simp [jSet, jGet, Ne.symm hkk]
  | cons p t ih =>
    obtain ⟨pk, pv⟩ := p
    rw [jSet]
    by_cases hp : pk = k
    · rw [if_pos hp, jGet, if_neg (Ne.symm hkk), jGet, if_neg ?hne]
      case hne => rw [hp]; exact Ne.symm hkk
    · rw [if_neg hp, jGet, jGet]
      by_cases hk' : pk = k'
      · rw [if_pos hk', if_pos hk']
      · rw [if_neg hk', if_neg hk']
        exact ih

theorem sLookup_eq_none_of_not_mem {k : String} {pairs : List (String × String)}
    (h : k ∉ pairs.map Prod.fst) : sLookup k pairs = none := by
  induction pairs with
  | nil => rfl
  | cons kv rest ih =>
    obtain ⟨k1, v1⟩ := kv
    rw [sLookup, if_neg fun he => h (by simp [he])]
    exact ih fun hm => h (by simp [hm])

theorem jGet_assignPairs_not_mem (k : String) (e : List (String × Json))
    (pairs : List (String × String)) (h : sLookup k pairs = none) :
    jGet k (assignPairs e pairs) = jGet k e := by
  induction pairs generalizing e with
  | nil => rfl
  | cons kv rest ih =>
    obtain ⟨k1, v1⟩ := kv
    rw [sLookup] at h
    by_cases hk : k1 = k
    · rw [if_pos hk] at h; cases h
    · rw [if_neg hk] at h
      rw [assignPairs, List.foldl_cons]
      have hstep := ih h (e := jSet k1 (Json.str v1) e)
      rw [assignPairs] at hstep
      rw [hstep, jGet_jSet_other (fun he => hk he.symm)]

theorem jGet_assignPairs_mem (k v : String) (e : List (String × Json))
    (pairs : List (String × String)) (hnd : (pairs.map Prod.fst).Nodup)
    (h : sLookup k pairs = some v) :
    jGet k (assignPairs e pairs) = some (Json.str v) := by
  induction pairs generalizing e with
  | nil => cases h
  | cons kv rest ih =>
    obtain ⟨k1, v1⟩ := kv
    rw [List.map_cons, List.nodup_cons] at hnd
    rw [sLookup] at h
    rw [assignPairs, List.foldl_cons]
    by_cases hk : k1 = k
    · rw [if_pos hk] at h
      rw [Option.some_inj] at h
      subst h
      subst hk
      have hrest : sLookup k1 rest = none := sLookup_eq_none_of_not_mem hnd.1
      have hstep := jGet_assignPairs_not_mem k1 (jSet k1 (Json.str v1) e) rest hrest
      rw [assignPairs] at hstep
      rw [hstep, jGet_jSet_self]
    · rw [if_neg hk] at h
      have hstep := ih hnd.2 h (e := jSet k1 (Json.str v1) e)
      rw [assignPairs] at hstep
      exact hstep

/-- A settings document is well-formed for `settingsSetEnv` when its `env`
entry, if present, is an object (the only shape the settings files use; a
truthy non-object `env` would make JavaScript graft properties onto a
wrapper and is outside the model). -/
def envWF (data : List (String × Json)) : Prop :=
  match jGet "env" data with
  | none => True
  | some (Json.obj _) => True
  | some _ => False

/-- The prior `env` object of a settings document (empty when absent). -/
def envBase (data : List (String × Json)) : List (String × Json) :=
  match jGet "env" data with
  | some (Json.obj e) => e
  | _ => []

theorem settingsSetEnv_of_none {data : List (String × Json)}
    (pairs : List (String × String)) (h : jGet "env" data = none) :
    settingsSetEnv data pairs =
      jSet "env" (Json.obj (assignPairs [] pairs)) (jSet "env" (Json.obj []) data) := by
  rw [settingsSetEnv]
  simp only [h, jGet_jSet_self]

theorem settingsSetEnv_of_obj {data : List (String × Json)} {e : List (String × Json)}
    (pairs : List (String × String)) (h : jGet "env" data = some (Json.obj e)) :
    settingsSetEnv data pairs = jSet "env" (Json.obj (assignPairs e pairs)) data := by
  have ht : jsTruthy (Json.obj e) = true := rfl
  rw [settingsSetEnv]
  simp only [h, ht, if_true]

/-- C10: on a well-formed settings document, `settingsSetEnv` changes only
the `env` object: every top-level key other than `env` keeps its previous
value; the resulting `env` is an object in which every key outside `pairs`
keeps its previous value from the prior `env` (the empty object when `env`
was absent) and every key of `pairs` holds its given value. -/
theorem c10_settingsSetEnv (data : List (String × Json)) (pairs : List (String × String))
    (hwf : envWF data) (hnd : (pairs.map Prod.fst).Nodup) :
    (∀ k, k ≠ "env" → jGet k (settingsSetEnv data pairs) = jGet k data) ∧
    ∃ e', jGet "env" (settingsSetEnv data pairs) = some (Json.obj e') ∧
      (∀ k, sLookup k pairs = none → jGet k e' = jGet k (envBase data)) ∧
      (∀ k v, sLookup k pairs = some v → jGet k e' = some (Json.str v)) := by
  cases hEnv : jGet "env" data with
  | none =>
    rw [settingsSetEnv_of_none pairs hEnv]
    constructor
    · intro k hk
      rw [jGet_jSet_other hk, jGet_jSet_other hk]
    · refine ⟨assignPairs [] pairs, jGet_jSet_self _ _ _, ?_, ?_⟩
      · intro k hk
        rw [jGet_assignPairs_not_mem k [] pairs hk]
        simp [envBase, hEnv]
      · intro k v hkv
        exact jGet_assignPairs_mem k v [] pairs hnd hkv
  | some v =>
    cases v with
    | obj e =>
      rw [settingsSetEnv_of_obj pairs hEnv]
      constructor
      · intro k hk
        rw [jGet_jSet_other hk]
      · refine ⟨assignPairs e pairs, jGet_jSet_self _ _ _, ?_, ?_⟩
        · intro k hk
          rw [jGet_assignPairs_not_mem k e pairs hk]
          simp [envBase, hEnv]
        · intro k v hkv
          exact jGet_assignPairs_mem k v e pairs hnd hkv
    | null => simp [envWF, hEnv] at hwf
    | bool b => simp [envWF, hEnv] at hwf
    | num n => simp [envWF, hEnv] at hwf
    | str s => simp [envWF, hEnv] at hwf
    | arr elems => simp [envWF, hEnv] at hwf

/-- A concrete settings document for the witness. -/
def c10Data : List (String × Json) :=
  [("model", Json.str "opus"),
   ("env", Json.obj [("A", Json.str "1"), ("B", Json.str "2")])]

def c10Pairs : List (String × String) := [("B", "3"), ("C", "4")]

/-- C10 (witness): the frame property at a concrete document — `model` is
untouched, `A` keeps its value, `B` is overwritten, `C` is added. -/
theorem c10_settingsSetEnv_witness :
    jGet "model" (settingsSetEnv c10Data c10Pairs) = some (Json.str "opus") ∧
    ∃ e', jGet "env" (settingsSetEnv c10Data c10Pairs) = some (Json.obj e') ∧
      jGet "A" e' = some (Json.str "1") ∧ jGet "B" e' = some (Json.str "3") ∧
      jGet "C" e' = some (Json.str "4") := by
  obtain ⟨hframe, e', henv, hkeep, hset⟩ :=
    c10_settingsSetEnv c10Data c10Pairs trivial (by decide)
  refine ⟨(hframe "model" (by decide)).trans (by rfl), e', henv, ?_, ?_, ?_⟩
  · exact (hkeep "A" (by rfl)).trans (by rfl)
  · exact hset "B" "3" (by rfl)
  · exact hset "C" "4" (by rfl)

/-! ## Claim C6 — shape of the encoded header lines -/

/-- The claim-side JSON text of `{ forward_headers: names }` for names
that JSON prints literally. -/
def specOauthJson (names : List String) : List Char :=
  forwardOpen ++ sepComma (names.map fun n => '"' :: n.data ++ ['"']) ++ [']', '}']

theorem escapeChar_plain {c : Char} (h : plainChar c = true) : escapeChar c = [c] := by
  rw [plainChar] at h
  simp only [Bool.and_eq_true, decide_eq_true_eq, bne_iff_ne, ne_eq] at h
  obtain ⟨⟨⟨h1, _⟩, h3⟩, h4⟩ := h
  rw [escapeChar, if_neg h3, if_neg h4,
    if_neg (fun hEq => absurd h1 (by subst hEq; decide)),
    if_neg (fun hEq => absurd h1 (by subst hEq; decide)),
    if_neg (fun hEq => absurd h1 (by subst hEq; decide)),
    if_neg (fun hEq => absurd h1 (by subst hEq; decide)),
    if_neg (fun hEq => absurd h1 (by subst hEq; decide)),
    if_neg (by omega)]

theorem escapeChars_plain {s : List Char} (h : ∀ c ∈ s, plainChar c = true) :
    escapeChars s = s := by
  induction s with
  | nil => rfl
  | cons c t ih =>
    rw [escapeChars, escapeChar_plain (h c (List.mem_cons_self c t)),
      ih (fun d hd => h d (List.mem_cons_of_mem c hd)), List.singleton_append]

/-- On plain names, the source's `JSON.stringify` text coincides with the
claim-side unescaped rendering. -/
theorem forwardJson_plain {names : List String}
    (hn : ∀ n ∈ names, ∀ c ∈ n.data, plainChar c = true) :
    forwardJson names = specOauthJson names := by
  have hmap : names.map (fun n => jsonQuote n.data) =
      names.map (fun n => '"' :: n.data ++ ['"']) := by
    apply List.map_congr_left
    intro n hn'
    rw [jsonQuote, escapeChars_plain (hn n hn')]
  rw [forwardJson, hmap]
  rfl

theorem b64Char_ne_newline (i : Nat) : b64Char i ≠ '\n' := by
  by_cases h : i < 64
  · have hall : ∀ j : Fin 64, b64Char j.1 ≠ '\n' := by decide
    exact hall ⟨i, h⟩
  · rw [b64Char, List.getD_eq_default]
    · decide
    · simp only [not_lt] at h
      simpa [b64Alphabet] using h

theorem base64Encode_ne_newline (bs : List Nat) :
    ∀ c ∈ base64Encode bs, c ≠ '\n' := by
  induction bs using base64Encode.induct with
  | case1 a b c2 r ih =>
    intro c hc
    rw [base64Encode] at hc
    simp only [List.mem_cons] at hc
    rcases hc with rfl | rfl | rfl | rfl | hc
    · exact b64Char_ne_newline _
    · exact b64Char_ne_newline _
    · exact b64Char_ne_newline _
    · exact b64Char_ne_newline _
    · exact ih c hc
  | case2 a b =>
    intro c hc
    rw [base64Encode] at hc
    simp only [List.mem_cons, List.not_mem_nil, or_false] at hc
    rcases hc with rfl | rfl | rfl | rfl
    · exact b64Char_ne_newline _
    · exact b64Char_ne_newline _
    · exact b64Char_ne_newline _
    · decide
  | case3 a =>
    intro c hc
    rw [base64Encode] at hc
    simp only [List.mem_cons, List.not_mem_nil, or_false] at hc
    rcases hc with rfl | rfl | rfl | rfl
    · exact b64Char_ne_newline _
    · exact b64Char_ne_newline _
    · decide
    · decide
  | case4 => intro c hc; cases hc

/-- C6: for every forwarded-header-name list (of names JSON prints
literally, which covers all header names) and every api key, the OAuth
encoding is the token `x-portkey-api-key:<key>` followed by a newline and
the token `x-portkey-config:<base64>`, where `<base64>` is the base64
encoding of the (UTF-8 bytes of the) JSON text of
`{ forward_headers: names }` — and the second token never contains a
newline, so a newline-free key yields exactly two newline-separated
tokens; the provider and config encodings contain no newline when their
slug or id contains none, so each is a single token. -/
theorem c6_encode_shape (names : List String) (key : String)
    (hn : ∀ n ∈ names, ∀ c ∈ n.data, plainChar c = true) :
    encodeOauthHeaders names key =
      ⟨(apiKeyTok ++ key.data) ++
        '\n' :: (cfgTok ++ base64Encode (utf8Bytes (specOauthJson names)))⟩ ∧
    (∀ c ∈ cfgTok ++ base64Encode (utf8Bytes (forwardJson names)), c ≠ '\n') ∧
    ('\n' ∉ key.data → ∀ c ∈ apiKeyTok ++ key.data, c ≠ '\n') ∧
    (∀ slug : String, '\n' ∉ slug.data →
      ∀ c ∈ (encodeProviderHeader slug).data, c ≠ '\n') ∧
    (∀ id : String, '\n' ∉ id.data →
      ∀ c ∈ (encodeConfigHeader id).data, c ≠ '\n') := by
  have hcfg : ∀ c ∈ cfgTok, c ≠ '\n' := by decide
  have hapi : ∀ c ∈ apiKeyTok, c ≠ '\n' := by decide
  have hprov : ∀ c ∈ provTok, c ≠ '\n' := by decide
  refine ⟨?_, ?_, ?_, ?_, ?_⟩
  · rw [encodeOauthHeaders, forwardJson_plain hn]
    simp [List.append_assoc]
  · intro c hc
    rcases List.mem_append.mp hc with hc | hc
    · exact hcfg c hc
    · exact base64Encode_ne_newline _ c hc
  · intro hkey c hc
    rcases List.mem_append.mp hc with hc | hc
    · exact hapi c hc
    · exact fun he => hkey (he ▸ hc)
  · intro slug hslug c hc
    rw [encodeProviderHeader] at hc
    rcases List.mem_append.mp hc with hc | hc
    · exact hprov c hc
    · rcases List.mem_cons.mp hc with rfl | hc
      · decide
      · intro he
        subst he
        exact hslug ((List.dropWhile_sublist _).subset hc)
  · intro id hid c hc
    rw [encodeConfigHeader] at hc
    rcases List.mem_append.mp hc with hc | hc
    · exact hcfg c hc
    · exact fun he => hid (he ▸ hc)

/-- C6 (witness): the two-token shape at the names and key the source
uses. -/
theorem c6_encode_witness :
    encodeOauthHeaders ["authorization", "anthropic-beta"] "pk" =
      ⟨(apiKeyTok ++ "pk".data) ++
        '\n' :: (cfgTok ++ base64Encode (utf8Bytes
          (specOauthJson ["authorization", "anthropic-beta"])))⟩ :=
  (c6_encode_shape ["authorization", "anthropic-beta"] "pk" (by decide)).1

/-! ## Claim C9 — `writeShellRc` removes old blocks and is idempotent -/

theorem scanRemove_nil : ∀ f, scanRemove f [] = []
  | 0 => rfl
  | _ + 1 => rfl

theorem scanCount_nil : ∀ f, scanCount f [] = 0
  | 0 => rfl
  | _ + 1 => rfl

theorem sw_false_of_cs_false {p l : List Char} (hp : p ≠ [])
    (h : containsSub p l = false) : startsWithL p l = false := by
  cases l with
  | nil =>
    cases p with
    | nil => simp at hp
    | cons a as => rfl
  | cons c t =>
    rw [containsSub, Bool.or_eq_false_iff] at h
    exact h.1

/-- A well-formed block: prefixed and suffixed by the newlines
`writeShellRc` adds, it is consumed by the block regex as one whole match
(it starts with the begin marker and its earliest end-marker occurrence is
its own final line).  This is the shape `writeShellRc`'s callers append. -/
def GoodBlock (b : List Char) : Prop :=
  matchBlockAt ('\n' :: (b ++ ['\n'])) = some []

/-- The scan leaves untouched a head in which no begin marker occurs, up
to the newline separating it from the appended block. -/
theorem scanRemove_append {r : List Char} (hr : containsSub rcBegin r = false)
    (s : List Char) :
    ∀ f, scanRemove f (r ++ '\n' :: s) = r ++ scanRemove (f - r.length) ('\n' :: s) := by
  induction r with
  | nil => intro f; simp
  | cons c r' ih =>
    intro f
    rw [containsSub, Bool.or_eq_false_iff] at hr
    have hm : matchBlockAt (c :: (r' ++ '\n' :: s)) = none := by
      rw [matchBlockAt]
      have h1 : startsWithL rcBegin (r' ++ '\n' :: s) = false := by
        rw [sw_newline (by decide)]
        exact sw_false_of_cs_false (by decide) hr.2
      have h2 : startsWithL rcBegin (c :: (r' ++ '\n' :: s)) = false := by
        rw [← List.cons_append, sw_newline (by decide)]
        exact hr.1
      rw [h1, h2]
      simp
    cases f with
    | zero =>
      rw [Nat.zero_sub]
      rfl
    | succ f' =>
      rw [List.cons_append, scanRemove, hm]
      show c :: scanRemove f' (r' ++ '\n' :: s) =
        (c :: r') ++ scanRemove (f' + 1 - (c :: r').length) ('\n' :: s)
      rw [ih hr.2 f', List.cons_append, List.length_cons, Nat.succ_sub_succ]

/-- The scan counts no match inside such a head. -/
theorem scanCount_append {r : List Char} (hr : containsSub rcBegin r = false)
    (s : List Char) :
    ∀ f, scanCount f (r ++ '\n' :: s) = scanCount (f - r.length) ('\n' :: s) := by
  induction r with
  | nil => intro f; simp
  | cons c r' ih =>
    intro f
    rw [containsSub, Bool.or_eq_false_iff] at hr
    have hm : matchBlockAt (c :: (r' ++ '\n' :: s)) = none := by
      rw [matchBlockAt]
      have h1 : startsWithL rcBegin (r' ++ '\n' :: s) = false := by
        rw [sw_newline (by decide)]
        exact sw_false_of_cs_false (by decide) hr.2
      have h2 : startsWithL rcBegin (c :: (r' ++ '\n' :: s)) = false := by
        rw [← List.cons_append, sw_newline (by decide)]
        exact hr.1
      rw [h1, h2]
      simp
    cases f with
    | zero =>
      rw [Nat.zero_sub]
      rfl
    | succ f' =>
      rw [List.cons_append, scanCount, hm]
      show scanCount f' (r' ++ '\n' :: s) =
        scanCount (f' + 1 - (c :: r').length) ('\n' :: s)
      rw [ih hr.2 f', List.length_cons, Nat.succ_sub_succ]

/-- C9 (amended): for prior contents whose removal pass leaves no begin
marker behind (in particular, contents whose begin markers all lie inside
well-formed blocks) and a well-formed appended block, `writeShellRc` is
idempotent and its result contains exactly one Portkey-delimited block. -/
theorem c9_writeShellRc_amended (c b : List Char) (hb : GoodBlock b)
    (hc : containsSub rcBegin (removeBlocks c) = false) :
    writeShellRc (writeShellRc c b) b = writeShellRc c b ∧
    countBlocks (writeShellRc c b) = 1 := by
  have hlen : ∀ r : List Char, (r ++ '\n' :: (b ++ ['\n'])).length - r.length
      = (b ++ ['\n']).length + 1 := by
    intro r
    simp [List.length_append]
  have key : removeBlocks (removeBlocks c ++ '\n' :: (b ++ ['\n'])) = removeBlocks c := by
    rw [removeBlocks, scanRemove_append hc, hlen, scanRemove, hb]
    show removeBlocks c ++ scanRemove (b ++ ['\n']).length [] = removeBlocks c
    rw [scanRemove_nil, List.append_nil]
  constructor
  · show removeBlocks (writeShellRc c b) ++ '\n' :: (b ++ ['\n']) = writeShellRc c b
    rw [writeShellRc, key]
  · show scanCount (writeShellRc c b).length (writeShellRc c b) = 1
    rw [writeShellRc, scanCount_append hc, hlen, scanCount, hb]
    show scanCount (b ++ ['\n']).length [] + 1 = 1
    rw [scanCount_nil]

/-- The block shape the source writes: begin-marker line, an export line,
end-marker line. -/
def c9Block : List Char :=
  "# ── Portkey + Claude Code (v1.0.0) ──\nexport A=\"1\"\n# ── End Portkey + Claude Code ──".data

/-- A prior content on which removal reconstitutes a block: the text
before the well-formed block ends with a partial begin marker, and the
text after it completes the marker and supplies an end marker, so deleting
the block joins them into a fresh block. -/
def c9Bad : List Char :=
  ("# ── Portkey + Claude\n# ── Portkey + Claude CodeZ# ── End Portkey + Claude Code ──" ++
    " CodeJUNK# ── End Portkey + Claude Code ──").data

/-- C9 (counterexample): after `writeShellRc c9Bad c9Block` the content
contains two Portkey-delimited blocks, not one, and applying
`writeShellRc` twice with the same block differs from applying it once. -/
theorem c9_counterexample :
    countBlocks (writeShellRc c9Bad c9Block) = 2 ∧
    writeShellRc (writeShellRc c9Bad c9Block) c9Block ≠ writeShellRc c9Bad c9Block := by
  constructor
  · decide
  · decide

/-- C9 (witness): the amended theorem at an ordinary shell-rc content. -/
theorem c9_writeShellRc_witness :
    writeShellRc (writeShellRc "export FOO=1".data c9Block) c9Block =
      writeShellRc "export FOO=1".data c9Block ∧
    countBlocks (writeShellRc "export FOO=1".data c9Block) = 1 :=
  c9_writeShellRc_amended "export FOO=1".data c9Block (by unfold GoodBlock; decide)
    (by decide)

/-! ## Claim C4 — OAuth payload carries the forwarded header names -/

theorem b64Char_mem (i : Nat) : b64Char i ∈ b64Alphabet := by
  by_cases h : i < 64
  · rw [b64Char, List.getD_eq_getElem?_getD, List.getElem?_eq_getElem (by simpa [b64Alphabet] using h)]
    exact List.getElem_mem _
  · rw [b64Char, List.getD_eq_default]
    · decide
    · simp only [not_lt] at h
      simpa [b64Alphabet] using h

theorem base64Encode_mem (bs : List Nat) :
    ∀ c ∈ base64Encode bs, c = '=' ∨ c ∈ b64Alphabet := by
  induction bs using base64Encode.induct with
  | case1 a b c2 r ih =>
    intro c hc
    rw [base64Encode] at hc
    simp only [List.mem_cons] at hc
    rcases hc with rfl | rfl | rfl | rfl | hc
    · exact Or.inr (b64Char_mem _)
    · exact Or.inr (b64Char_mem _)
    · exact Or.inr (b64Char_mem _)
    · exact Or.inr (b64Char_mem _)
    · exact ih c hc
  | case2 a b =>
    intro c hc
    rw [base64Encode] at hc
    simp only [List.mem_cons, List.not_mem_nil, or_false] at hc
    rcases hc with rfl | rfl | rfl | rfl
    · exact Or.inr (b64Char_mem _)
    · exact Or.inr (b64Char_mem _)
    · exact Or.inr (b64Char_mem _)
    · exact Or.inl rfl
  | case3 a =>
    intro c hc
    rw [base64Encode] at hc
    simp only [List.mem_cons, List.not_mem_nil, or_false] at hc
    rcases hc with rfl | rfl | rfl | rfl
    · exact Or.inr (b64Char_mem _)
    · exact Or.inr (b64Char_mem _)
    · exact Or.inl rfl
    · exact Or.inl rfl
  | case4 => intro c hc; cases hc

theorem base64Encode_not_mem {x : Char} (hx : x ≠ '=') (ha : x ∉ b64Alphabet)
    (bs : List Nat) : x ∉ base64Encode bs := by
  intro hmem
  rcases base64Encode_mem bs x hmem with h | h
  · exact hx h
  · exact ha h

theorem base64Encode_nonspace (bs : List Nat) :
    ∀ c ∈ base64Encode bs, jsSpace c = false := by
  have halpha : ∀ c ∈ b64Alphabet, jsSpace c = false := by decide
  intro c hc
  rcases base64Encode_mem bs c hc with rfl | h
  · decide
  · exact halpha c h

theorem base64Encode_length (bs : List Nat) :
    (base64Encode bs).length = (bs.length + 2) / 3 * 4 := by
  induction bs using base64Encode.induct with
  | case1 a b c2 r ih =>
    rw [base64Encode]
    simp only [List.length_cons, ih, List.length_cons]
    omega
  | case2 a b => simp [base64Encode]
  | case3 a => simp [base64Encode]
  | case4 => rfl

theorem b64Index_b64Char {i : Nat} (h : i < 64) : b64Index (b64Char i) = some i := by
  have hall : ∀ j : Fin 64, b64Index (b64Char j.1) = some j.1 := by decide
  exact hall ⟨i, h⟩

theorem b64Char_ne_eq (i : Nat) : b64Char i ≠ '=' := by
  intro h
  have := b64Char_mem i
  rw [h] at this
  revert this
  decide

/-- Modelled base64 decoding inverts the encoder on byte sequences. -/
theorem base64_roundtrip {bs : List Nat} (hb : ∀ b ∈ bs, b < 256) :
    base64Decode (base64Encode bs) = some bs := by
  induction bs using base64Encode.induct with
  | case1 a b c2 r ih =>
    have ha : a < 256 := hb a (by simp)
    have hbb : b < 256 := hb b (by simp)
    have hc2 : c2 < 256 := hb c2 (by simp)
    have e1 : b64Index (b64Char (a / 4)) = some (a / 4) := b64Index_b64Char (by omega)
    have e2 : b64Index (b64Char (a % 4 * 16 + b / 16)) = some (a % 4 * 16 + b / 16) :=
      b64Index_b64Char (by omega)
    have e3 : b64Index (b64Char (b % 16 * 4 + c2 / 64)) = some (b % 16 * 4 + c2 / 64) :=
      b64Index_b64Char (by omega)
    have e4 : b64Index (b64Char (c2 % 64)) = some (c2 % 64) :=
      b64Index_b64Char (by omega)
    rw [base64Encode]
    simp [base64Decode, e1, e2, e3, e4, b64Char_ne_eq,
      ih (fun x hx => hb x (by simp [hx]))]
    omega
  | case2 a b =>
    have ha : a < 256 := hb a (by simp)
    have hbb : b < 256 := hb b (by simp)
    have e1 : b64Index (b64Char (a / 4)) = some (a / 4) := b64Index_b64Char (by omega)
    have e2 : b64Index (b64Char (a % 4 * 16 + b / 16)) = some (a % 4 * 16 + b / 16) :=
      b64Index_b64Char (by omega)
    have e3 : b64Index (b64Char (b % 16 * 4)) = some (b % 16 * 4) :=
      b64Index_b64Char (by omega)
    rw [base64Encode]
    simp [base64Decode, e1, e2, e3, b64Char_ne_eq]
    omega
  | case3 a =>
    have ha : a < 256 := hb a (by simp)
    have e1 : b64Index (b64Char (a / 4)) = some (a / 4) := b64Index_b64Char (by omega)
    have e2 : b64Index (b64Char (a % 4 * 16)) = some (a % 4 * 16) :=
      b64Index_b64Char (by omega)
    rw [base64Encode]
    simp [base64Decode, e1, e2]
    omega
  | case4 => rfl

theorem char_toNat_lt (c : Char) : c.toNat < 1114112 := by
  rcases c.valid with h | ⟨_, h⟩
  · exact Nat.lt_trans h (by decide)
  · exact h

theorem utf8Char_lt_256 (c : Char) : ∀ b ∈ utf8Char c, b < 256 := by
  have hv := char_toNat_lt c
  intro b hb
  rw [utf8Char] at hb
  split_ifs at hb with h1 h2 h3
  all_goals simp only [List.mem_cons, List.not_mem_nil, or_false] at hb
  · omega
  · rcases hb with rfl | rfl <;> omega
  · rcases hb with rfl | rfl | rfl <;> omega
  · rcases hb with rfl | rfl | rfl | rfl <;> omega

theorem utf8Bytes_lt_256 (s : List Char) : ∀ b ∈ utf8Bytes s, b < 256 := by
  induction s with
  | nil => intro b hb; cases hb
  | cons c t ih =>
    intro b hb
    rw [utf8Bytes] at hb
    rcases List.mem_append.mp hb with hb | hb
    · exact utf8Char_lt_256 c b hb
    · exact ih b hb

/-- On ASCII text, UTF-8 is one byte per character and the modelled text
decoding inverts the encoding. -/
theorem asciiDecode_utf8 {s : List Char} (hs : ∀ c ∈ s, c.toNat < 128) :
    asciiDecode (utf8Bytes s) = some s := by
  induction s with
  | nil => rfl
  | cons c t ih =>
    have hc := hs c (List.mem_cons_self c t)
    rw [utf8Bytes, utf8Char, if_pos hc, List.singleton_append, asciiDecode, if_pos hc,
      ih (fun d hd => hs d (List.mem_cons_of_mem c hd))]
    simp

theorem mem_sepComma {c : Char} : ∀ {L : List (List Char)}, c ∈ sepComma L →
    c = ',' ∨ ∃ x ∈ L, c ∈ x := by
  intro L
  induction L with
  | nil => intro h; cases h
  | cons x xs ih =>
    intro h
    cases xs with
    | nil => exact Or.inr ⟨x, by simp, h⟩
    | cons y ys =>
      rw [sepComma] at h
      rcases List.mem_append.mp h with h | h
      · exact Or.inr ⟨x, by simp, h⟩
      · rcases List.mem_cons.mp h with rfl | h
        · exact Or.inl rfl
        · rcases ih h with h | ⟨z, hz, hcz⟩
          · exact Or.inl h
          · exact Or.inr ⟨z, by simp [hz], hcz⟩

theorem plainChar_props {c : Char} (h : plainChar c = true) :
    32 ≤ c.toNat ∧ c.toNat < 128 ∧ c ≠ '"' ∧ c ≠ '\\' := by
  rw [plainChar] at h
  simp only [Bool.and_eq_true, decide_eq_true_eq, bne_iff_ne, ne_eq] at h
  exact ⟨h.1.1.1, h.1.1.2, h.1.2, h.2⟩

/-- Every character of the payload JSON text is ASCII when the names are
plain. -/
theorem forwardJson_assoc (names : List String) :
    forwardJson names =
      '{' :: (jsonQuote "forward_headers".data ++
        ':' :: '[' :: (sepComma (names.map fun n => jsonQuote n.data) ++ [']', '}'])) := by
  simp [forwardJson, List.append_assoc]

theorem forwardJson_ascii {names : List String}
    (hn : ∀ n ∈ names, ∀ c ∈ n.data, plainChar c = true) :
    ∀ c ∈ forwardJson names, c.toNat < 128 := by
  have hquote : ∀ c ∈ jsonQuote "forward_headers".data, c.toNat < 128 := by decide
  intro c hc
  rw [forwardJson_assoc] at hc
  rcases List.mem_cons.mp hc with rfl | hc
  · decide
  rcases List.mem_append.mp hc with hc | hc
  · exact hquote c hc
  rcases List.mem_cons.mp hc with rfl | hc
  · decide
  rcases List.mem_cons.mp hc with rfl | hc
  · decide
  rcases List.mem_append.mp hc with hc | hc
  · rcases mem_sepComma hc with rfl | ⟨x, hx, hcx⟩
    · decide
    · obtain ⟨n, hnn, rfl⟩ := List.mem_map.mp hx
      rw [jsonQuote, escapeChars_plain (hn n hnn)] at hcx
      rcases List.mem_append.mp hcx with hcx | hcx
      · rcases List.mem_cons.mp hcx with rfl | hcx
        · decide
        · exact (plainChar_props (hn n hnn c hcx)).2.1
      · rcases List.mem_cons.mp hcx with rfl | hcx
        · decide
        · cases hcx
  · rcases List.mem_cons.mp hc with rfl | hc
    · decide
    rcases List.mem_cons.mp hc with rfl | hc
    · decide
    cases hc

theorem parseQuotedGo_spec {s : List Char} (hs : ∀ c ∈ s, c ≠ '"' ∧ c ≠ '\\') :
    ∀ acc rest', parseQuotedGo (s ++ '"' :: rest') acc = some (acc.reverse ++ s, rest') := by
  induction s with
  | nil =>
    intro acc rest'
    rw [List.nil_append, parseQuotedGo, if_pos rfl]
    simp
  | cons c t ih =>
    intro acc rest'
    obtain ⟨hq, hb⟩ := hs c (List.mem_cons_self c t)
    rw [List.cons_append, parseQuotedGo, if_neg hq, if_neg hb,
      ih (fun d hd => hs d (List.mem_cons_of_mem c hd)) (c :: acc) rest']
    simp

/-- Parsing the rendered non-empty item list of the payload array
reconstructs the names. -/
theorem parseItems_spec :
    ∀ (names : List String), names ≠ [] →
    (∀ n ∈ names, ∀ c ∈ n.data, plainChar c = true) →
    ∀ f, (sepComma (names.map fun n => '"' :: n.data ++ ['"']) ++ [']', '}']).length ≤ f →
    parseItems f (sepComma (names.map fun n => '"' :: n.data ++ ['"']) ++ [']', '}']) =
      some names := by
  intro names
  induction names with
  | nil => intro h; exact absurd rfl h
  | cons n ns ih =>
    intro _ hplain f hf
    have hq : ∀ c ∈ n.data, c ≠ '"' ∧ c ≠ '\\' := by
      intro c hc
      have := plainChar_props (hplain n (by simp) c hc)
      exact ⟨this.2.2.1, this.2.2.2⟩
    cases ns with
    | nil =>
      have hshape :
          (sepComma ([n].map fun m => '"' :: m.data ++ ['"']) ++ ([']', '}'] : List Char)) =
            '"' :: (n.data ++ '"' :: [']', '}']) := by
        show (('"' :: n.data ++ ['"']) ++ ([']', '}'] : List Char)) = _
        simp
      rw [hshape] at hf ⊢
      cases f with
      | zero => simp at hf
      | succ f' =>
        rw [parseItems, parseQuoted, if_pos rfl, parseQuotedGo_spec hq [] [']', '}']]
        simp
    | cons m ms =>
      have hshape :
          (sepComma ((n :: m :: ms).map fun x => '"' :: x.data ++ ['"']) ++ ([']', '}'] : List Char)) =
            '"' :: (n.data ++ '"' ::
              (',' :: (sepComma ((m :: ms).map fun x => '"' :: x.data ++ ['"']) ++ [']', '}']))) := by
        show ((('"' :: n.data ++ ['"']) ++
            ',' :: sepComma ((m :: ms).map fun x => '"' :: x.data ++ ['"'])) ++
              ([']', '}'] : List Char)) = _
        simp
      rw [hshape] at hf ⊢
      cases f with
      | zero => simp at hf
      | succ f' =>
        rw [parseItems, parseQuoted, if_pos rfl,
          parseQuotedGo_spec hq []
            (',' :: (sepComma ((m :: ms).map fun x => '"' :: x.data ++ ['"']) ++ [']', '}']))]
        have hfuel :
            (sepComma ((m :: ms).map fun x => '"' :: x.data ++ ['"']) ++
              ([']', '}'] : List Char)).length ≤ f' := by
          simp only [List.length_cons, List.length_append] at hf ⊢
          omega
        have hih := ih (by simp) (fun x hx => hplain x (by simp [hx])) f' hfuel
        simp at hih
        simp [hih]

/-- Modelled from the spec: the full payload decoding applied to the
encoder's base64 value yields the original forwarded-header names. -/
theorem specForwardHeaders_encode {names : List String}
    (hn : ∀ n ∈ names, ∀ c ∈ n.data, plainChar c = true) :
    specForwardHeaders (base64Encode (utf8Bytes (forwardJson names))) = some names := by
  have h1 : base64Decode (base64Encode (utf8Bytes (forwardJson names))) =
      some (utf8Bytes (forwardJson names)) := base64_roundtrip (utf8Bytes_lt_256 _)
  have h2 : asciiDecode (utf8Bytes (forwardJson names)) = some (forwardJson names) :=
    asciiDecode_utf8 (forwardJson_ascii hn)
  have hplainEq : forwardJson names = specOauthJson names := forwardJson_plain hn
  have h3 : startsWithL forwardOpen (forwardJson names) = true := by
    rw [hplainEq, specOauthJson]
    exact sw_self_append _ _
  simp only [specForwardHeaders, h1, h2, h3, if_true]
  rw [hplainEq, specOauthJson, List.append_assoc, List.drop_left]
  cases names with
  | nil => rfl
  | cons n ns =>
    cases ns with
    | nil =>
      have hs1 : sepComma ([n].map fun x => '"' :: x.data ++ ['"']) ++ ([']', '}'] : List Char) =
          '"' :: (n.data ++ '"' :: [']', '}']) := by
        show (('"' :: n.data ++ ['"']) ++ ([']', '}'] : List Char)) = _
        simp
      have hspec := parseItems_spec [n] (by simp) hn _ (le_refl _)
      rw [hs1] at hspec ⊢
      rw [parseForwardArr, if_neg (by decide)]
      exact hspec
    | cons m ms =>
      have hs2 : sepComma ((n :: m :: ms).map fun x => '"' :: x.data ++ ['"']) ++
            ([']', '}'] : List Char) =
          '"' :: (n.data ++ '"' ::
            (',' :: (sepComma ((m :: ms).map fun x => '"' :: x.data ++ ['"']) ++ [']', '}']))) := by
        show ((('"' :: n.data ++ ['"']) ++
            ',' :: sepComma ((m :: ms).map fun x => '"' :: x.data ++ ['"'])) ++
              ([']', '}'] : List Char)) = _
        simp
      have hspec := parseItems_spec (n :: m :: ms) (by simp) hn _ (le_refl _)
      rw [hs2] at hspec ⊢
      rw [parseForwardArr, if_neg (by decide)]
      exact hspec

theorem utf8Char_len_pos (c : Char) : 1 ≤ (utf8Char c).length := by
  rw [utf8Char]
  split_ifs <;> simp

theorem utf8Bytes_len_ge (s : List Char) : s.length ≤ (utf8Bytes s).length := by
  induction s with
  | nil => simp [utf8Bytes]
  | cons c t ih =>
    rw [utf8Bytes, List.length_append, List.length_cons]
    have := utf8Char_len_pos c
    omega

theorem forwardJson_len (names : List String) : 22 ≤ (forwardJson names).length := by
  have h17 : (jsonQuote "forward_headers".data).length = 17 := by decide
  rw [forwardJson_assoc]
  simp [List.length_append, h17]
  omega

/-- The provider token cannot occur in the api-key token followed by a
key made of ordinary key characters (no colon). -/
theorem cs_provTok_apiKey {k : List Char} (hk : ∀ c ∈ k, keyChar c = true) :
    containsSub provTok (apiKeyTok ++ k) = false := by
  have h1 : containsSub provTok k = false := by
    refine cs_false_of_not_mem ':' (by decide) ?_
    intro hm
    exact absurd (hk ':' hm) (by decide)
  simp [apiKeyTok, provTok, containsSub, startsWithL, h1]
  exact h1

/-- Nor can the config token. -/
theorem cs_cfgTok_apiKey {k : List Char} (hk : ∀ c ∈ k, keyChar c = true) :
    containsSub cfgTok (apiKeyTok ++ k) = false := by
  have h1 : containsSub cfgTok k = false := by
    refine cs_false_of_not_mem ':' (by decide) ?_
    intro hm
    exact absurd (hk ':' hm) (by decide)
  simp [apiKeyTok, cfgTok, containsSub, startsWithL, h1]
  exact h1

/-- On the two-token OAuth line, the leftmost config-token match captures
exactly the base64 payload. -/
theorem matchToken_oauth_line (key : String) (hk2 : ∀ c ∈ key.data, keyChar c = true)
    {B : List Char} (hB1 : B ≠ [])
    (hBmem : ∀ c ∈ B, c = '=' ∨ c ∈ b64Alphabet) :
    matchTokenL cfgTok ((apiKeyTok ++ key.data) ++ '\n' :: (cfgTok ++ B)) = some B := by
  have halpha : ∀ x ∈ b64Alphabet, jsSpace x = false := by decide
  have hAcfg : containsSub cfgTok (apiKeyTok ++ key.data) = false := cs_cfgTok_apiKey hk2
  rw [matchTokenL_newline (by decide) (by decide) _ _ hAcfg]
  obtain ⟨c0, B', rfl⟩ : ∃ c0 B', B = c0 :: B' := by
    cases B with
    | nil => exact absurd rfl hB1
    | cons c0 B' => exact ⟨c0, B', rfl⟩
  have hns : ∀ c ∈ c0 :: B', jsSpace c = false := by
    intro c hc
    rcases hBmem c hc with rfl | h
    · decide
    · exact halpha c h
  exact matchTokenL_self (by decide) c0 B' (hns c0 (by simp))
    (fun d hd => hns d (by simp [hd]))

/-- Decoding the two-token OAuth line classifies it as `oauth`: the
provider token occurs nowhere, and the config token's captured value is
the base64 payload, which neither starts with `pc-` nor is shorter than
30 characters. -/
theorem decode_oauth_line (key : String) (hk2 : ∀ c ∈ key.data, keyChar c = true)
    {B : List Char} (hB1 : B ≠ [])
    (hBmem : ∀ c ∈ B, c = '=' ∨ c ∈ b64Alphabet) (hBlen : 30 ≤ B.length) :
    decodeRoutingL ((apiKeyTok ++ key.data) ++ '\n' :: (cfgTok ++ B)) = .oauth := by
  have halpha : ∀ x ∈ b64Alphabet, jsSpace x = false := by decide
  have halphacolon : (':' : Char) ∉ b64Alphabet := by decide
  have halphadash : ('-' : Char) ∉ b64Alphabet := by decide
  have hA : containsSub provTok (apiKeyTok ++ key.data) = false := cs_provTok_apiKey hk2
  have hBcolon : containsSub provTok B = false := by
    refine cs_false_of_not_mem ':' (by decide) ?_
    intro hm
    rcases hBmem ':' hm with h | h
    · exact absurd h (by decide)
    · exact halphacolon h
  have hC : containsSub provTok (cfgTok ++ B) = false := by
    rw [cs_provTok_cfgTok]
    exact hBcolon
  have hprov : containsSub provTok
      ((apiKeyTok ++ key.data) ++ '\n' :: (cfgTok ++ B)) = false := by
    rw [cs_newline_split (by decide) (by decide), hA, hC]
    rfl
  have hAcfg : containsSub cfgTok (apiKeyTok ++ key.data) = false := cs_cfgTok_apiKey hk2
  have hcfg : containsSub cfgTok
      ((apiKeyTok ++ key.data) ++ '\n' :: (cfgTok ++ B)) = true := by
    rw [cs_newline_split (by decide) (by decide), hAcfg, cs_self_append _ (by decide)]
    rfl
  have hmatch : matchTokenL cfgTok
      ((apiKeyTok ++ key.data) ++ '\n' :: (cfgTok ++ B)) = some B :=
    matchToken_oauth_line key hk2 hB1 hBmem
  have hpc : startsWithL pcPre B = false := by
    rw [Bool.eq_false_iff]
    intro hsw
    have hdash : ('-' : Char) ∈ B := (sw_iff.mp hsw).subset (by decide)
    rcases hBmem '-' hdash with h | h
    · exact absurd h (by decide)
    · exact halphadash h
  rw [decodeRoutingL, hprov, if_neg (by simp), hcfg, if_pos rfl, hmatch]
  simp [hpc, Nat.not_lt.mpr hBlen]

/-- C4 (counterexample): the source decode of the OAuth header line only
classifies the mode — it returns the same result for different
forwarded-header-name lists, so it does not reconstruct
`forwardedHeaderNames` from the payload. -/
theorem c4_counterexample :
    decodeRoutingHeader (encodeOauthHeaders ["authorization", "anthropic-beta"] "pk") =
      .oauth ∧
    decodeRoutingHeader (encodeOauthHeaders ["x-custom"] "pk") = .oauth ∧
    (["authorization", "anthropic-beta"] : List String) ≠ ["x-custom"] := by
  refine ⟨by decide, by decide, by decide⟩

/-- C4 (amended): for every forwarded-header-name list (of names JSON
prints literally) and every api key made of ordinary key characters, the
source decode classifies the encoded two-token line as `oauth`
(reproducing neither the names nor the key), while the spec-described
payload decoding — base64, text, `forward_headers` field, which no code
in the repository performs — applied to the line's config-token value
reconstructs the original `forwardedHeaderNames`; the api key is not part
of that payload, the payload being a function of the names alone. -/
theorem c4_oauth_amended (names : List String) (key : String)
    (hn : ∀ n ∈ names, ∀ c ∈ n.data, plainChar c = true)
    (hk2 : ∀ c ∈ key.data, keyChar c = true) :
    decodeRoutingHeader (encodeOauthHeaders names key) = .oauth ∧
    specForwardHeaders
      ((matchTokenL cfgTok (encodeOauthHeaders names key).data).getD []) = some names := by
  have hL : (encodeOauthHeaders names key).data =
      (apiKeyTok ++ key.data) ++
        '\n' :: (cfgTok ++ base64Encode (utf8Bytes (forwardJson names))) := by
    show ((apiKeyTok ++ key.data ++ '\n' :: cfgTok) ++
        base64Encode (utf8Bytes (forwardJson names))) = _
    simp [List.append_assoc]
  have hBmem := base64Encode_mem (utf8Bytes (forwardJson names))
  have hBlen : 30 ≤ (base64Encode (utf8Bytes (forwardJson names))).length := by
    rw [base64Encode_length]
    have h1 := utf8Bytes_len_ge (forwardJson names)
    have h2 := forwardJson_len names
    omega
  have hB1 : base64Encode (utf8Bytes (forwardJson names)) ≠ [] := by
    intro h
    rw [h] at hBlen
    simp at hBlen
  constructor
  · show decodeRoutingL (encodeOauthHeaders names key).data = .oauth
    rw [hL]
    exact decode_oauth_line key hk2 hB1 hBmem hBlen
  · rw [hL, matchToken_oauth_line key hk2 hB1 hBmem, Option.getD_some]
    exact specForwardHeaders_encode hn

/-- C4 (witness): the amended statement at the names and key the source
uses. -/
theorem c4_oauth_witness :
    decodeRoutingHeader (encodeOauthHeaders ["authorization", "anthropic-beta"] "pk") =
      .oauth ∧
    specForwardHeaders
      ((matchTokenL cfgTok
        (encodeOauthHeaders ["authorization", "anthropic-beta"] "pk").data).getD []) =
      some ["authorization", "anthropic-beta"] :=
  c4_oauth_amended ["authorization", "anthropic-beta"] "pk" (by decide) (by decide)
